import Mathlib

/-!
Shallow embedding of the state-sync client (statesync/client.go): the
request dispatch + retry + response-validation engine. Byte strings are
modelled as lists of naturals, content hashes as naturals, and the
external collaborators (codec decode, rlp block decode, keccak hashing,
merkle range-proof verification, network transport) as explicit function
parameters, since the engine treats them as abstract capabilities.
-/

namespace StateSync

/-- Byte strings are modelled as lists of naturals. -/
abbrev Bytes := List Nat

/-- LeafsRequest from message: Root, optional Start bound, End bound, Limit.
Start is an Option to model the nil-slice check in the source. -/
structure LeafsRequest where
  Root : Nat
  Start : Option Bytes
  End : Bytes
  Limit : Nat
deriving DecidableEq, Repr

/-- LeafsResponse from message: parallel Keys/Vals, parallel proof pairs,
and the derived More flag. -/
structure LeafsResponse where
  Keys : List Bytes
  Vals : List Bytes
  ProofKeys : List Bytes
  ProofVals : List Bytes
  More : Bool
deriving DecidableEq, Repr

/-- BlockRequest from message: tip Hash, Height, and Parents count. -/
structure BlockRequest where
  Hash : Nat
  Height : Nat
  Parents : Nat
deriving DecidableEq, Repr

/-- BlockResponse from message: raw block encodings, tip-first. -/
structure BlockResponse where
  Blocks : List Bytes
deriving DecidableEq, Repr

/-- CodeRequest from message: the content hash of the requested blob. -/
structure CodeRequest where
  Hash : Nat
deriving DecidableEq, Repr

/-- CodeResponse from message: the raw code bytes. -/
structure CodeResponse where
  Data : Bytes
deriving DecidableEq, Repr

/-- A decoded block, abstracting types.Block: its own content hash
(block.Hash() in the source) and its parent-hash field. -/
structure Block where
  hash : Nat
  parentHash : Nat
deriving DecidableEq, Repr

/-- Abstract merkle range-proof verifier, the shape of
trie.VerifyRangeProof(root, firstKey, lastKey, keys, vals, proof):
returns the has-more flag or an error. The proof store is the optional
list of key/value pairs put into the transient memorydb. -/
abbrev Verifier :=
  Nat → Bytes → Bytes → List Bytes → List Bytes →
    Option (List (Bytes × Bytes)) → Except String Bool

/-- The transient proof store built from the response, mirroring the
source: it stays nil when no proof keys are present, otherwise it holds
the ProofKeys paired with ProofVals. -/
def proofStore (resp : LeafsResponse) : Option (List (Bytes × Bytes)) :=
  if resp.ProofKeys.length > 0 then some (resp.ProofKeys.zip resp.ProofVals)
  else none

/-- parseLeafsResponse from the source, on an already-decoded response
(codec decoding is upstream of the checks the claims are about). Checks,
in source order: leaf-count bound, empty-keys-needs-proof, proof pairing
(only when proof keys are present), then delegates to the verifier with
the effective first/last keys and sets More from its result. -/
def parseLeafsResponse (verify : Verifier) (req : LeafsRequest)
    (resp : LeafsResponse) : Except String LeafsResponse :=
  if resp.Keys.length > req.Limit ∨ resp.Vals.length > req.Limit then
    .error "response contains more than requested leaves"
  else if resp.Keys.length = 0 ∧ resp.ProofKeys.length = 0 then
    .error "empty key response must include merkle proof"
  else if resp.ProofKeys.length > 0 ∧ resp.ProofKeys.length ≠ resp.ProofVals.length then
    .error "mismatch in length of proof keys and vals"
  else
    let firstKey := match req.Start with
      | none => List.replicate req.End.length 0
      | some s => s
    let lastKey := if resp.Keys.length > 0 then resp.Keys.getLast?.getD req.End
      else req.End
    match verify req.Root firstKey lastKey resp.Keys resp.Vals (proofStore resp) with
    | .error e => .error ("failed to verify range proof due to " ++ e)
    | .ok more => .ok { resp with More := more }

/-- Effective first key, following the spec wording: the Start bound if
present, else the all-zero key of the byte-length of End. -/
def effectiveFirstKey (req : LeafsRequest) : Bytes :=
  match req.Start with
  | some s => s
  | none => List.replicate req.End.length 0

/-- Effective last key, following the spec wording: the last entry of
Keys if any keys were returned, else the End bound. -/
def effectiveLastKey (req : LeafsRequest) (resp : LeafsResponse) : Bytes :=
  resp.Keys.getLast?.getD req.End

/-- Modelled from the spec: the repository's trie.VerifyRangeProof is not
under src/; per the spec the verifier is trusted to enforce that the
Key/Val pairs are authentic under the root, in particular that they pair
1:1 (the validators enforce len(Keys) == len(Vals) via this delegation).
A verifier satisfies this predicate when it only succeeds on key/value
sequences of equal length. -/
def VerifierEnforcesPairing (verify : Verifier) : Prop :=
  ∀ root fk lk keys vals pf m,
    verify root fk lk keys vals pf = .ok m → keys.length = vals.length

/-- Chain walk inside parseBlocks: decode each raw block, compare its
content hash with the expected hash, thread the parent hash forward. -/
def decodeChain (decodeBlock : Bytes → Option Block) :
    Nat → List Bytes → Except String (List Block)
  | _, [] => .ok []
  | expected, b :: rest =>
    match decodeBlock b with
    | none => .error "failed to unmarshal response"
    | some blk =>
      if blk.hash ≠ expected then .error "hash does not match expected value"
      else
        match decodeChain decodeBlock blk.parentHash rest with
        | .error e => .error e
        | .ok blks => .ok (blk :: blks)

/-- parseBlocks from the source, on an already-decoded BlockResponse:
reject empty responses, reject more blocks than requested parents, then
walk the hash chain from the requested tip hash. -/
def parseBlocks (decodeBlock : Bytes → Option Block) (req : BlockRequest)
    (resp : BlockResponse) : Except String (List Block) :=
  if resp.Blocks.length = 0 then .error "empty response"
  else if resp.Blocks.length > req.Parents then
    .error "response contains more blocks than requested"
  else decodeChain decodeBlock req.Hash resp.Blocks

/-- Spec-side restatement of the hash-chain condition: walking the raw
sequence in order with an expected hash, every entry decodes and its
content hash equals the expected hash, which then advances to its
parent hash. -/
def chainValid (decodeBlock : Bytes → Option Block) :
    Nat → List Bytes → Bool
  | _, [] => true
  | expected, b :: rest =>
    match decodeBlock b with
    | none => false
    | some blk => blk.hash == expected && chainValid decodeBlock blk.parentHash rest

/-- parseCode from the source, on an already-decoded CodeResponse:
reject empty data, reject content-hash mismatches with the requested
hash, otherwise return the response unchanged. keccak abstracts
crypto.Keccak256Hash. -/
def parseCode (keccak : Bytes → Nat) (req : CodeRequest)
    (resp : CodeResponse) : Except String CodeResponse :=
  if resp.Data.length = 0 then .error "empty response"
  else if keccak resp.Data ≠ req.Hash then
    .error "hash does not match expected value"
  else .ok resp

/-- Failure of a single attempt inside the retry loop: a transport error
from the network client, or a validator error from the parse function. -/
inductive AttemptError where
  | transport
  | validator (msg : String)
deriving DecidableEq, Repr

/-- Terminal outcome of get: the request failed to encode, the delay draw
aborted (rand.Int63n panics when its bound is not positive), or the
retry limit was exceeded, wrapping the last observed attempt error. -/
inductive GetError where
  | encodeFailed
  | sleepPanic (attempt : Nat)
  | retryLimit (attempts : Nat) (last : Option AttemptError)
deriving DecidableEq, Repr

/-- Observable record of one attempt of the retry loop: its index, the
delay slept before it (none on the first attempt), the peer it was sent
to (none when RequestAny chooses the peer), and the bytes sent. -/
structure AttemptLog where
  attempt : Nat
  delay : Option Nat
  peer : Option Nat
  sent : Bytes
deriving DecidableEq, Repr

/-- Static inputs of one call to get: the result of encoding the request
(RequestToBytes), the configured fixed peer set, the retry-delay ceiling
in nanoseconds (a time.Duration, hence an integer), the transport as a
function from attempt index and request bytes to an optional response
(none meaning a transport error), the response validator, and the raw
random source consumed by the delay draw on each attempt. -/
structure GetConfig (α : Type) where
  encoded : Option Bytes
  stateSyncNodes : List Nat
  maxDelayNanos : Int
  net : Nat → Bytes → Option Bytes
  parseFn : Bytes → Except String α
  randSrc : Nat → Nat

/-- One attempt's failure, if any: transport error when the network call
fails, validator error when the parse function rejects the response. -/
def attemptOutcome (cfg : GetConfig α) (i : Nat) (bs : Bytes) :
    Option AttemptError :=
  match cfg.net i bs with
  | none => some .transport
  | some r =>
    match cfg.parseFn r with
    | .error e => some (.validator e)
    | .ok _ => none

/-- The retry loop of get, one constructor step per iteration. remaining
counts the iterations left, attempt is the current attempt index,
nodeIdx the rotation cursor, lastErr the last observed attempt error,
and lg the trace accumulated so far. Mirrors the source: when the
attempt index is positive the loop first draws a random delay below the
ceiling (modelled as randSrc reduced modulo the ceiling; the draw aborts
when the ceiling is not positive, as rand.Int63n panics there), then
selects a peer (advancing the cursor when a fixed peer set is
configured), sends, and on transport or validator failure continues with
the error recorded; on validator success it returns immediately. When
remaining hits zero it returns the retry-limit error wrapping lastErr. -/
def getLoop (cfg : GetConfig α) (bs : Bytes) (total : Nat) :
    Nat → Nat → Nat → Option AttemptError → List AttemptLog →
    List AttemptLog × Nat × Except GetError α
  | 0, _, nodeIdx, lastErr, lg =>
    (lg, nodeIdx, .error (.retryLimit total lastErr))
  | remaining + 1, attempt, nodeIdx, _lastErr, lg =>
    if 0 < attempt ∧ cfg.maxDelayNanos ≤ 0 then
      (lg, nodeIdx, .error (.sleepPanic attempt))
    else
      let delay : Option Nat :=
        if 0 < attempt then some (cfg.randSrc attempt % cfg.maxDelayNanos.toNat)
        else none
      let nodeIdx' : Nat :=
        if cfg.stateSyncNodes.length = 0 then nodeIdx
        else (nodeIdx + 1) % cfg.stateSyncNodes.length
      let peer : Option Nat :=
        if cfg.stateSyncNodes.length = 0 then none
        else some (cfg.stateSyncNodes.getD nodeIdx' 0)
      let lg' := lg ++ [⟨attempt, delay, peer, bs⟩]
      match cfg.net attempt bs with
      | none =>
        getLoop cfg bs total remaining (attempt + 1) nodeIdx' (some .transport) lg'
      | some resp =>
        match cfg.parseFn resp with
        | .error e =>
          getLoop cfg bs total remaining (attempt + 1) nodeIdx'
            (some (.validator e)) lg'
        | .ok v => (lg', nodeIdx', .ok v)

/-- get from the source: encode the request once (an encoding failure
returns immediately, before the loop), then run the retry loop for the
configured number of attempts starting from the client's current
rotation cursor. Returns the attempt trace, the final rotation cursor,
and the result. -/
def get (cfg : GetConfig α) (attempts : Nat) (startIdx : Nat) :
    List AttemptLog × Nat × Except GetError α :=
  match cfg.encoded with
  | none => ([], startIdx, .error .encodeFailed)
  | some bs => getLoop cfg bs attempts attempts 0 startIdx none []

/-- GetCode's unwrap step: run the engine and project the Data bytes of
the validated CodeResponse. -/
def GetCodeRun (cfg : GetConfig CodeResponse) (attempts startIdx : Nat) :
    Except GetError Bytes :=
  match (get cfg attempts startIdx).2.2 with
  | .error e => .error e
  | .ok resp => .ok resp.Data

/-- The parse function GetCode installs in the engine: codec-decode the
response bytes, then validate with parseCode. -/
def codeParseFn (decodeCode : Bytes → Option CodeResponse)
    (keccak : Bytes → Nat) (req : CodeRequest) :
    Bytes → Except String CodeResponse :=
  fun data =>
    match decodeCode data with
    | none => .error "failed to unmarshal response"
    | some resp => parseCode keccak req resp

/-- The peer the rotation selects on the k-th attempt of a call that
starts with the cursor at s: the cursor is advanced before every send,
so attempt k reads index (s + 1 + k) modulo the set size. -/
def peerAt (nodes : List Nat) (s k : Nat) : Nat :=
  nodes.getD ((s + 1 + k) % nodes.length) 0

/-- The trace the retry loop appends when every attempt fails, starting
at attempt index a with rotation cursor n: one record per remaining
iteration. -/
def failTrace (cfg : GetConfig α) (bs : Bytes) :
    Nat → Nat → Nat → List AttemptLog
  | 0, _, _ => []
  | r + 1, a, n =>
    { attempt := a
      delay := if 0 < a then some (cfg.randSrc a % cfg.maxDelayNanos.toNat)
        else none
      peer := if cfg.stateSyncNodes.length = 0 then none
        else some (cfg.stateSyncNodes.getD ((n + 1) % cfg.stateSyncNodes.length) 0)
      sent := bs } ::
      failTrace cfg bs r (a + 1)
        (if cfg.stateSyncNodes.length = 0 then n
         else (n + 1) % cfg.stateSyncNodes.length)

theorem failTrace_length (cfg : GetConfig α) (bs : Bytes) (r : Nat) :
    ∀ (a n : Nat), (failTrace cfg bs r a n).length = r := by
  induction r with
  | zero => intro a n; rfl
  | succ r ih => intro a n; rw [failTrace]; simp [ih]

theorem getLoop_fail_trace (cfg : GetConfig α) (bs : Bytes) (total : Nat)
    (hd : 0 < cfg.maxDelayNanos)
    (hfail : ∀ i, (attemptOutcome cfg i bs).isSome) (r : Nat) :
    ∀ (a n : Nat) (lastErr : Option AttemptError) (lg : List AttemptLog),
      (getLoop cfg bs total r a n lastErr lg).1 = lg ++ failTrace cfg bs r a n := by
  induction r with
  | zero => intro a n lastErr lg; simp [getLoop, failTrace]
  | succ r ih =>
    intro a n lastErr lg
    have hnp : ¬(0 < a ∧ cfg.maxDelayNanos ≤ 0) := fun h => by omega
    rw [getLoop, if_neg hnp]
    have hf := hfail a
    rw [attemptOutcome] at hf
    cases hne : cfg.net a bs with
    | none =>
      simp only [hne]
      rw [ih, failTrace]
      simp
      by_cases hN : cfg.stateSyncNodes = [] <;> simp [hN]
    | some resp =>
      cases hp : cfg.parseFn resp with
      | error e =>
        simp only [hne, hp]
        rw [ih, failTrace]
        simp
        by_cases hN : cfg.stateSyncNodes = [] <;> simp [hN]
      | ok v =>
        simp only [hne, hp] at hf
        simp at hf

theorem getLoop_fail_result (cfg : GetConfig α) (bs : Bytes) (total : Nat)
    (hd : 0 < cfg.maxDelayNanos)
    (hfail : ∀ i, (attemptOutcome cfg i bs).isSome) (r : Nat) :
    ∀ (a n : Nat) (lastErr : Option AttemptError) (lg : List AttemptLog),
      (getLoop cfg bs total r a n lastErr lg).2.2 =
        .error (.retryLimit total
          (if r = 0 then lastErr else attemptOutcome cfg (a + r - 1) bs)) := by
  induction r with
  | zero => intro a n lastErr lg; simp [getLoop]
  | succ r ih =>
    intro a n lastErr lg
    have hnp : ¬(0 < a ∧ cfg.maxDelayNanos ≤ 0) := fun h => by omega
    rw [getLoop, if_neg hnp]
    have hf := hfail a
    rw [attemptOutcome] at hf
    cases hne : cfg.net a bs with
    | none =>
      simp only [hne]
      rw [ih]
      by_cases hr : r = 0
      · subst hr
        simp [attemptOutcome, hne]
      · have harg : a + 1 + r - 1 = a + (r + 1) - 1 := by omega
        simp only [hr, if_false, harg]
        simp
    | some resp =>
      cases hp : cfg.parseFn resp with
      | error e =>
        simp only [hne, hp]
        rw [ih]
        by_cases hr : r = 0
        · subst hr
          simp [attemptOutcome, hne, hp]
        · have harg : a + 1 + r - 1 = a + (r + 1) - 1 := by omega
          simp only [hr, if_false, harg]
          simp
      | ok v =>
        simp only [hne, hp] at hf
        simp at hf

theorem get_fail_trace (cfg : GetConfig α) (bs : Bytes) (attempts s : Nat)
    (henc : cfg.encoded = some bs) (hd : 0 < cfg.maxDelayNanos)
    (hfail : ∀ i, (attemptOutcome cfg i bs).isSome) :
    (get cfg attempts s).1 = failTrace cfg bs attempts 0 s := by
  simp only [get, henc]
  rw [getLoop_fail_trace cfg bs attempts hd hfail]
  simp

theorem get_fail_result (cfg : GetConfig α) (bs : Bytes) (attempts s : Nat)
    (henc : cfg.encoded = some bs) (hd : 0 < cfg.maxDelayNanos)
    (hfail : ∀ i, (attemptOutcome cfg i bs).isSome) :
    (get cfg attempts s).2.2 =
      .error (.retryLimit attempts
        (if attempts = 0 then none else attemptOutcome cfg (attempts - 1) bs)) := by
  simp only [get, henc]
  rw [getLoop_fail_result cfg bs attempts hd hfail]
  simp

theorem failTrace_getElem (cfg : GetConfig α) (bs : Bytes) (r : Nat) :
    ∀ (a n k : Nat), k < r →
      (failTrace cfg bs r a n)[k]? =
        some { attempt := a + k
               delay := if 0 < a + k then
                   some (cfg.randSrc (a + k) % cfg.maxDelayNanos.toNat)
                 else none
               peer := if cfg.stateSyncNodes.length = 0 then none
                 else some (cfg.stateSyncNodes.getD
                   ((n + 1 + k) % cfg.stateSyncNodes.length) 0)
               sent := bs } := by
  induction r with
  | zero => intro a n k hk; omega
  | succ r ih =>
    intro a n k hk
    cases k with
    | zero =>
      rw [failTrace]
      simp
    | succ k =>
      rw [failTrace]
      simp only [List.getElem?_cons_succ]
      rw [ih (a + 1) _ k (by omega)]
      have ha : a + 1 + k = a + (k + 1) := by omega
      by_cases hN : cfg.stateSyncNodes.length = 0
      · simp [hN, ha]
      · have hmod : (n + 1) % cfg.stateSyncNodes.length + 1 + k =
            (n + 1) % cfg.stateSyncNodes.length + (1 + k) := by omega
        have hmod2 : (n + 1 + (1 + k)) % cfg.stateSyncNodes.length =
            (n + 1 + (k + 1)) % cfg.stateSyncNodes.length := by
          have : n + 1 + (1 + k) = n + 1 + (k + 1) := by omega
          rw [this]
        simp only [hN, if_false, ha, hmod, Nat.mod_add_mod, hmod2]

theorem getLoop_sent (cfg : GetConfig α) (bs : Bytes) (total r : Nat) :
    ∀ (a n : Nat) (lastErr : Option AttemptError) (lg : List AttemptLog)
      (e : AttemptLog), e ∈ (getLoop cfg bs total r a n lastErr lg).1 →
      e ∈ lg ∨ e.sent = bs := by
  induction r with
  | zero =>
    intro a n lastErr lg e he
    rw [getLoop] at he
    exact .inl he
  | succ r ih =>
    intro a n lastErr lg e he
    rw [getLoop] at he
    by_cases hnp : 0 < a ∧ cfg.maxDelayNanos ≤ 0
    · rw [if_pos hnp] at he
      exact .inl he
    · rw [if_neg hnp] at he
      cases hne : cfg.net a bs with
      | none =>
        simp only [hne] at he
        rcases ih _ _ _ _ e he with h | h
        · rcases List.mem_append.1 h with h | h
          · exact .inl h
          · right
            rw [List.mem_singleton] at h
            subst h
            rfl
        · exact .inr h
      | some resp =>
        cases hp : cfg.parseFn resp with
        | error msg =>
          simp only [hne, hp] at he
          rcases ih _ _ _ _ e he with h | h
          · rcases List.mem_append.1 h with h | h
            · exact .inl h
            · right
              rw [List.mem_singleton] at h
              subst h
              rfl
          · exact .inr h
        | ok v =>
          simp only [hne, hp] at he
          rcases List.mem_append.1 he with h | h
          · exact .inl h
          · right
            rw [List.mem_singleton] at h
            subst h
            rfl

theorem getLoop_ok (cfg : GetConfig α) (bs : Bytes) (total r : Nat) :
    ∀ (a n : Nat) (lastErr : Option AttemptError) (lg : List AttemptLog) (v : α),
      (getLoop cfg bs total r a n lastErr lg).2.2 = .ok v →
      ∃ i resp, cfg.net i bs = some resp ∧ cfg.parseFn resp = .ok v := by
  induction r with
  | zero =>
    intro a n lastErr lg v h
    rw [getLoop] at h
    simp at h
  | succ r ih =>
    intro a n lastErr lg v h
    rw [getLoop] at h
    by_cases hnp : 0 < a ∧ cfg.maxDelayNanos ≤ 0
    · rw [if_pos hnp] at h
      simp at h
    · rw [if_neg hnp] at h
      cases hne : cfg.net a bs with
      | none =>
        simp only [hne] at h
        exact ih _ _ _ _ _ h
      | some resp =>
        cases hp : cfg.parseFn resp with
        | error msg =>
          simp only [hne, hp] at h
          exact ih _ _ _ _ _ h
        | ok w =>
          simp only [hne, hp] at h
          refine ⟨a, resp, hne, ?_⟩
          rw [hp]
          simpa using h

theorem get_ok (cfg : GetConfig α) (attempts s : Nat) (v : α)
    (h : (get cfg attempts s).2.2 = .ok v) :
    ∃ bs, cfg.encoded = some bs ∧
      ∃ i resp, cfg.net i bs = some resp ∧ cfg.parseFn resp = .ok v := by
  cases henc : cfg.encoded with
  | none =>
    rw [get] at h
    simp only [henc] at h
    simp at h
  | some bs =>
    rw [get] at h
    simp only [henc] at h
    exact ⟨bs, rfl, getLoop_ok cfg bs attempts attempts 0 s none [] v h⟩

/-- Example engine configuration whose transport fails on every attempt,
used to exercise the retry engine on concrete inputs. -/
def exFailCfg : GetConfig Unit :=
  { encoded := some [1, 2]
    stateSyncNodes := [7, 8, 9]
    maxDelayNanos := 5
    net := fun _ _ => none
    parseFn := fun _ => .error "always invalid"
    randSrc := fun _ => 3 }

/-- C1: if every attempt fails (transport error or validator error on
each), get performs exactly maxAttempts attempts (the trace has exactly
that length) and returns the terminal retry-limit-exceeded error
wrapping the outcome of the final attempt; no retryable error is
surfaced before exhaustion. -/
theorem retryExhaustionTerminal (cfg : GetConfig α) (bs : Bytes)
    (attempts s : Nat) (henc : cfg.encoded = some bs)
    (hd : 0 < cfg.maxDelayNanos) (hA : 0 < attempts)
    (hfail : ∀ i, (attemptOutcome cfg i bs).isSome) :
    (get cfg attempts s).1.length = attempts ∧
    (get cfg attempts s).2.2 =
      .error (.retryLimit attempts (attemptOutcome cfg (attempts - 1) bs)) := by
  constructor
  · rw [get_fail_trace cfg bs attempts s henc hd hfail, failTrace_length]
  · rw [get_fail_result cfg bs attempts s henc hd hfail, if_neg (by omega)]

/-- Witness for C1 at a concrete all-failing configuration with three
attempts. -/
theorem retryExhaustionTerminal_witness :
    (get exFailCfg 3 0).1.length = 3 ∧
    (get exFailCfg 3 0).2.2 =
      .error (.retryLimit 3 (attemptOutcome exFailCfg 2 [1, 2])) :=
  retryExhaustionTerminal exFailCfg [1, 2] 3 0 rfl (by decide) (by decide)
    (fun _ => rfl)

/-- C2: with a non-empty fixed peer set, every attempt k of a call whose
rotation cursor starts at s sends to the peer at index (s + 1 + k) mod N
(the cursor advanced before every send, including the first); the index
map is injective over any window of N consecutive attempts, and every
configured peer is selected within the first N attempts. -/
theorem peerRotationCycles (cfg : GetConfig α) (bs : Bytes)
    (attempts s : Nat) (henc : cfg.encoded = some bs)
    (hd : 0 < cfg.maxDelayNanos)
    (hfail : ∀ i, (attemptOutcome cfg i bs).isSome)
    (h0 : 0 < cfg.stateSyncNodes.length)
    (hM : cfg.stateSyncNodes.length ≤ attempts) :
    (∀ k, k < attempts →
      ∃ e, ((get cfg attempts s).1)[k]? = some e ∧
        e.peer = some (peerAt cfg.stateSyncNodes s k)) ∧
    (cfg.stateSyncNodes.Nodup →
      ∀ k₁ k₂, k₁ < cfg.stateSyncNodes.length →
        k₂ < cfg.stateSyncNodes.length →
        peerAt cfg.stateSyncNodes s k₁ = peerAt cfg.stateSyncNodes s k₂ →
        k₁ = k₂) ∧
    (∀ p ∈ cfg.stateSyncNodes, ∃ k, k < cfg.stateSyncNodes.length ∧
      peerAt cfg.stateSyncNodes s k = p) := by
  have hN0 : cfg.stateSyncNodes.length ≠ 0 := by omega
  refine ⟨?_, ?_, ?_⟩
  · intro k hk
    rw [get_fail_trace cfg bs attempts s henc hd hfail]
    rw [failTrace_getElem cfg bs attempts 0 s k hk]
    refine ⟨_, rfl, ?_⟩
    simp [peerAt, hN0]
  · intro hnd k₁ k₂ h1 h2 heq
    have hi1 : (s + 1 + k₁) % cfg.stateSyncNodes.length <
        cfg.stateSyncNodes.length := Nat.mod_lt _ h0
    have hi2 : (s + 1 + k₂) % cfg.stateSyncNodes.length <
        cfg.stateSyncNodes.length := Nat.mod_lt _ h0
    rw [peerAt, peerAt, List.getD_eq_getElem _ 0 hi1,
      List.getD_eq_getElem _ 0 hi2] at heq
    have hidx := (hnd.getElem_inj_iff).1 heq
    have hcan : k₁ % cfg.stateSyncNodes.length =
        k₂ % cfg.stateSyncNodes.length :=
      Nat.ModEq.add_left_cancel' (s + 1) hidx
    rw [Nat.mod_eq_of_lt h1, Nat.mod_eq_of_lt h2] at hcan
    exact hcan
  · intro p hp
    obtain ⟨j, hj, hjp⟩ := List.mem_iff_getElem.1 hp
    refine ⟨(j + cfg.stateSyncNodes.length - (s + 1) % cfg.stateSyncNodes.length) %
      cfg.stateSyncNodes.length, Nat.mod_lt _ h0, ?_⟩
    have hr : (s + 1) % cfg.stateSyncNodes.length <
        cfg.stateSyncNodes.length := Nat.mod_lt _ h0
    have hstep : (s + 1 +
        (j + cfg.stateSyncNodes.length - (s + 1) % cfg.stateSyncNodes.length) %
          cfg.stateSyncNodes.length) % cfg.stateSyncNodes.length = j := by
      rw [← Nat.mod_add_mod, Nat.add_mod_mod]
      have harg : (s + 1) % cfg.stateSyncNodes.length +
          (j + cfg.stateSyncNodes.length - (s + 1) % cfg.stateSyncNodes.length) =
          j + cfg.stateSyncNodes.length := by omega
      rw [harg, Nat.add_mod_right, Nat.mod_eq_of_lt hj]
    rw [peerAt, hstep, List.getD_eq_getElem _ 0 hj]
    exact hjp

/-- Witness for C2 at the concrete all-failing configuration: three
distinct peers, three attempts, starting cursor zero. -/
theorem peerRotationCycles_witness :
    (∀ k, k < 3 →
      ∃ e, ((get exFailCfg 3 0).1)[k]? = some e ∧
        e.peer = some (peerAt exFailCfg.stateSyncNodes 0 k)) ∧
    (exFailCfg.stateSyncNodes.Nodup →
      ∀ k₁ k₂, k₁ < exFailCfg.stateSyncNodes.length →
        k₂ < exFailCfg.stateSyncNodes.length →
        peerAt exFailCfg.stateSyncNodes 0 k₁ =
          peerAt exFailCfg.stateSyncNodes 0 k₂ → k₁ = k₂) ∧
    (∀ p ∈ exFailCfg.stateSyncNodes, ∃ k,
      k < exFailCfg.stateSyncNodes.length ∧
      peerAt exFailCfg.stateSyncNodes 0 k = p) :=
  peerRotationCycles exFailCfg [1, 2] 3 0 rfl (by decide) (fun _ => rfl)
    (by decide) (by decide)

/-- Example engine configuration whose request fails to encode. -/
def exNoEncodeCfg : GetConfig Unit :=
  { encoded := none
    stateSyncNodes := []
    maxDelayNanos := 5
    net := fun _ _ => none
    parseFn := fun _ => .error "always invalid"
    randSrc := fun _ => 0 }

/-- C9: the request is encoded once, before the attempt loop; if
encoding fails the call returns that error immediately with an empty
attempt trace (no peer selection, no send), and if encoding succeeds
every attempt of the trace sends the same encoded bytes. -/
theorem encodeOncePerCall (cfg : GetConfig α) (attempts s : Nat) :
    (cfg.encoded = none → get cfg attempts s = ([], s, .error .encodeFailed)) ∧
    (∀ bs, cfg.encoded = some bs →
      ∀ e ∈ (get cfg attempts s).1, e.sent = bs) := by
  constructor
  · intro henc
    rw [get]
    simp only [henc]
  · intro bs henc e he
    rw [get] at he
    simp only [henc] at he
    rcases getLoop_sent cfg bs attempts attempts 0 s none [] e he with h | h
    · simp at h
    · exact h

/-- Witness for C9: a failing encode returns immediately with an empty
trace, and a successful encode sends the same bytes on every attempt of
a concrete three-attempt run. -/
theorem encodeOncePerCall_witness :
    get exNoEncodeCfg 3 0 = ([], 0, .error .encodeFailed) ∧
    ∀ e ∈ (get exFailCfg 3 0).1, e.sent = [1, 2] :=
  ⟨(encodeOncePerCall exNoEncodeCfg 3 0).1 rfl,
   fun e he => (encodeOncePerCall exFailCfg 3 0).2 [1, 2] rfl e he⟩

/-- Example engine configuration with delay ceiling zero, the scenario
on which the delay draw aborts. -/
def exZeroDelayCfg : GetConfig Unit :=
  { encoded := some [1]
    stateSyncNodes := []
    maxDelayNanos := 0
    net := fun _ _ => none
    parseFn := fun _ => .error "always invalid"
    randSrc := fun _ => 0 }

/-- Counterexample to C10 as stated: the delay computation is not
well-defined for every configured maxDelay. With maxDelay = 0 and two
attempts against a failing transport, the second attempt reaches the
delay draw rand.Int63n(maxRetryDelay.Nanoseconds()), whose documented
behavior is to panic when its bound is not positive (modelled as the
sleepPanic outcome), instead of completing the retry loop. -/
theorem delayDrawZeroCeilingAborts :
    (get exZeroDelayCfg 2 0).2.2 = .error (.sleepPanic 1) := rfl

/-- C10 amended: no sleep occurs before the first attempt, and for every
configured maxDelay whose nanosecond count is positive, every later
attempt k sleeps the drawn value randSrc k reduced modulo the ceiling,
a duration within the half-open interval from zero to the ceiling; for
maxDelay of zero or below the draw aborts instead (rand.Int63n panics
on a non-positive bound). -/
theorem delayDrawBounded (cfg : GetConfig α) (bs : Bytes)
    (attempts s : Nat) (henc : cfg.encoded = some bs)
    (hd : 0 < cfg.maxDelayNanos)
    (hfail : ∀ i, (attemptOutcome cfg i bs).isSome) :
    ∀ k, k < attempts →
      ∃ e, ((get cfg attempts s).1)[k]? = some e ∧
        e.delay = (if 0 < k then
          some (cfg.randSrc k % cfg.maxDelayNanos.toNat) else none) ∧
        ∀ d, e.delay = some d → d < cfg.maxDelayNanos.toNat := by
  intro k hk
  rw [get_fail_trace cfg bs attempts s henc hd hfail,
    failTrace_getElem cfg bs attempts 0 s k hk]
  have hM : 0 < cfg.maxDelayNanos.toNat := by omega
  refine ⟨_, rfl, by simp, ?_⟩
  intro d hdd
  by_cases hk0 : 0 < k
  · simp only [Nat.zero_add, if_pos hk0] at hdd
    have : d = cfg.randSrc k % cfg.maxDelayNanos.toNat := by
      cases hdd
      rfl
    rw [this]
    exact Nat.mod_lt _ hM
  · simp only [Nat.zero_add, if_neg hk0] at hdd
    cases hdd

/-- Witness for the amended C10 at a concrete configuration: attempt 1
of the failing three-attempt run sleeps its drawn delay, below the
ceiling. -/
theorem delayDrawBounded_witness :
    ∃ e, ((get exFailCfg 3 0).1)[1]? = some e ∧
      e.delay = (if 0 < 1 then
        some (exFailCfg.randSrc 1 % exFailCfg.maxDelayNanos.toNat) else none) ∧
      ∀ d, e.delay = some d → d < exFailCfg.maxDelayNanos.toNat :=
  delayDrawBounded exFailCfg [1, 2] 3 0 rfl (by decide) (fun _ => rfl) 1
    (by decide)

theorem parseLeafsResponse_checks (verify : Verifier) (req : LeafsRequest)
    (resp : LeafsResponse)
    (h1 : ¬(resp.Keys.length > req.Limit ∨ resp.Vals.length > req.Limit))
    (h2 : ¬(resp.Keys.length = 0 ∧ resp.ProofKeys.length = 0))
    (h3 : ¬(resp.ProofKeys.length > 0 ∧
      resp.ProofKeys.length ≠ resp.ProofVals.length)) :
    parseLeafsResponse verify req resp =
      match verify req.Root (effectiveFirstKey req) (effectiveLastKey req resp)
          resp.Keys resp.Vals (proofStore resp) with
      | .error e => .error ("failed to verify range proof due to " ++ e)
      | .ok more => .ok { resp with More := more } := by
  rw [parseLeafsResponse, if_neg h1, if_neg h2, if_neg h3]
  have hfk : (match req.Start with
      | none => List.replicate req.End.length 0
      | some s => s) = effectiveFirstKey req := by
    rw [effectiveFirstKey]
    cases req.Start <;> rfl
  have hlk : (if resp.Keys.length > 0 then resp.Keys.getLast?.getD req.End
      else req.End) = effectiveLastKey req resp := by
    rw [effectiveLastKey]
    by_cases hK : resp.Keys.length > 0
    · rw [if_pos hK]
    · rw [if_neg hK]
      have : resp.Keys = [] := List.length_eq_zero.1 (by omega)
      rw [this]
      rfl
  simp only [hfk, hlk]

theorem decodeChain_ok_iff (decodeBlock : Bytes → Option Block)
    (h : Nat) (bsl : List Bytes) :
    (∃ blks, decodeChain decodeBlock h bsl = .ok blks) ↔
      chainValid decodeBlock h bsl = true := by
  induction bsl generalizing h with
  | nil => simp [decodeChain, chainValid]
  | cons b rest ih =>
    rw [decodeChain, chainValid]
    cases hdb : decodeBlock b with
    | none => simp
    | some blk =>
      simp only []
      by_cases hh : blk.hash = h
      · rw [hh, if_neg (not_not_intro rfl)]
        simp only [beq_self_eq_true, Bool.true_and]
        constructor
        · rintro ⟨blks, hok⟩
          cases hdc : decodeChain decodeBlock blk.parentHash rest with
          | error e => rw [hdc] at hok; cases hok
          | ok bl => exact (ih blk.parentHash).1 ⟨bl, hdc⟩
        · intro hcv
          obtain ⟨bl, hdc⟩ := (ih blk.parentHash).2 hcv
          exact ⟨blk :: bl, by rw [hdc]⟩
      · rw [if_pos hh]
        simp [hh]

theorem decodeChain_ok_order (decodeBlock : Bytes → Option Block)
    (h : Nat) (bsl : List Bytes) (blks : List Block)
    (hok : decodeChain decodeBlock h bsl = .ok blks) :
    List.Forall₂ (fun b blk => decodeBlock b = some blk) bsl blks := by
  induction bsl generalizing h blks with
  | nil =>
    rw [decodeChain] at hok
    cases hok
    exact .nil
  | cons b rest ih =>
    rw [decodeChain] at hok
    cases hdb : decodeBlock b with
    | none => rw [hdb] at hok; cases hok
    | some blk =>
      rw [hdb] at hok
      simp only [] at hok
      by_cases hh : blk.hash = h
      · rw [if_neg (not_not_intro hh)] at hok
        cases hdc : decodeChain decodeBlock blk.parentHash rest with
        | error e => rw [hdc] at hok; cases hok
        | ok bl =>
          rw [hdc] at hok
          cases hok
          exact .cons hdb (ih blk.parentHash bl hdc)
      · rw [if_pos hh] at hok
        cases hok

theorem parseCode_ok (keccak : Bytes → Nat) (req : CodeRequest)
    (resp r : CodeResponse) (h : parseCode keccak req resp = .ok r) :
    r = resp ∧ resp.Data ≠ [] ∧ keccak resp.Data = req.Hash := by
  rw [parseCode] at h
  by_cases h1 : resp.Data.length = 0
  · rw [if_pos h1] at h
    cases h
  · rw [if_neg h1] at h
    by_cases h2 : keccak resp.Data ≠ req.Hash
    · rw [if_pos h2] at h
      cases h
    · rw [if_neg h2] at h
      cases h
      exact ⟨rfl, fun hnil => h1 (by simp [hnil]), not_not.1 h2⟩

/-- C3: parseBlocks accepts a decoded response exactly when the block
sequence is non-empty, its length is at most the requested Parents
count, and the hash-chain walk from the requested tip hash succeeds;
on acceptance the decoded blocks are returned in the same tip-first
order received (the raw entries and decoded blocks correspond 1:1 in
order). -/
theorem blockChainValidation (decodeBlock : Bytes → Option Block)
    (req : BlockRequest) (resp : BlockResponse) :
    ((∃ blks, parseBlocks decodeBlock req resp = .ok blks) ↔
      (resp.Blocks ≠ [] ∧ resp.Blocks.length ≤ req.Parents ∧
        chainValid decodeBlock req.Hash resp.Blocks = true)) ∧
    (∀ blks, parseBlocks decodeBlock req resp = .ok blks →
      List.Forall₂ (fun b blk => decodeBlock b = some blk) resp.Blocks blks) := by
  constructor
  · constructor
    · rintro ⟨blks, hok⟩
      rw [parseBlocks] at hok
      by_cases he : resp.Blocks.length = 0
      · rw [if_pos he] at hok
        cases hok
      · rw [if_neg he] at hok
        by_cases hp : resp.Blocks.length > req.Parents
        · rw [if_pos hp] at hok
          cases hok
        · rw [if_neg hp] at hok
          refine ⟨fun hnil => he (by simp [hnil]), by omega,
            (decodeChain_ok_iff decodeBlock req.Hash resp.Blocks).1 ⟨blks, hok⟩⟩
    · rintro ⟨hne, hle, hcv⟩
      obtain ⟨blks, hok⟩ :=
        (decodeChain_ok_iff decodeBlock req.Hash resp.Blocks).2 hcv
      refine ⟨blks, ?_⟩
      rw [parseBlocks,
        if_neg (fun h => hne (List.length_eq_zero.1 h)), if_neg (by omega)]
      exact hok
  · intro blks hok
    rw [parseBlocks] at hok
    by_cases he : resp.Blocks.length = 0
    · rw [if_pos he] at hok
      cases hok
    · rw [if_neg he] at hok
      by_cases hp : resp.Blocks.length > req.Parents
      · rw [if_pos hp] at hok
        cases hok
      · rw [if_neg hp] at hok
        exact decodeChain_ok_order decodeBlock req.Hash resp.Blocks blks hok

/-- Example block decoder for concrete runs: two known encodings forming
a correctly linked two-block chain. -/
def exDecodeBlock : Bytes → Option Block := fun b =>
  match b with
  | [1] => some ⟨10, 20⟩
  | [2] => some ⟨20, 30⟩
  | _ => none

/-- Witness for C3: a two-block correctly linked response for a request
with Parents three is accepted. -/
theorem blockChainValidation_witness :
    ∃ blks, parseBlocks exDecodeBlock ⟨10, 100, 3⟩ ⟨[[1], [2]]⟩ = .ok blks :=
  (blockChainValidation exDecodeBlock ⟨10, 100, 3⟩ ⟨[[1], [2]]⟩).1.mpr
    ⟨by decide, by decide, by decide⟩

/-- C4: the leaf validator rejects any decoded response whose Keys or
Vals exceed the requested Limit, and (with a verifier that enforces the
1:1 pairing of keys and values, as the spec requires of the delegated
range-proof verifier) every accepted response has equally many keys and
values, both at most Limit. -/
theorem leafsLengthBounds (verify : Verifier)
    (hver : VerifierEnforcesPairing verify) (req : LeafsRequest)
    (resp : LeafsResponse) :
    ((resp.Keys.length > req.Limit ∨ resp.Vals.length > req.Limit) →
      ∃ e, parseLeafsResponse verify req resp = .error e) ∧
    (∀ r, parseLeafsResponse verify req resp = .ok r →
      resp.Keys.length = resp.Vals.length ∧
        resp.Keys.length ≤ req.Limit ∧ resp.Vals.length ≤ req.Limit) := by
  constructor
  · intro hover
    rw [parseLeafsResponse, if_pos hover]
    exact ⟨_, rfl⟩
  · intro r hok
    by_cases h1 : resp.Keys.length > req.Limit ∨ resp.Vals.length > req.Limit
    · rw [parseLeafsResponse, if_pos h1] at hok
      cases hok
    · by_cases h2 : resp.Keys.length = 0 ∧ resp.ProofKeys.length = 0
      · rw [parseLeafsResponse, if_neg h1, if_pos h2] at hok
        cases hok
      · by_cases h3 : resp.ProofKeys.length > 0 ∧
            resp.ProofKeys.length ≠ resp.ProofVals.length
        · rw [parseLeafsResponse, if_neg h1, if_neg h2, if_pos h3] at hok
          cases hok
        · rw [parseLeafsResponse_checks verify req resp h1 h2 h3] at hok
          cases hv : verify req.Root (effectiveFirstKey req)
              (effectiveLastKey req resp) resp.Keys resp.Vals
              (proofStore resp) with
          | error e => rw [hv] at hok; cases hok
          | ok m =>
            push_neg at h1
            exact ⟨hver _ _ _ _ _ _ _ hv, by omega, by omega⟩

/-- Verifier used for concrete runs: accepts exactly when keys and vals
pair 1:1 (the pairing condition the spec entrusts to the range-proof
verifier), reporting that no further leaves exist. -/
def exVerify : Verifier := fun _ _ _ keys vals _ =>
  if keys.length = vals.length then .ok false
  else .error "inconsistent proof data"

theorem exVerify_enforcesPairing : VerifierEnforcesPairing exVerify := by
  intro root fk lk keys vals pf m h
  simp only [exVerify] at h
  by_cases hl : keys.length = vals.length
  · exact hl
  · rw [if_neg hl] at h
    cases h

/-- Witness for C4: an over-limit response is rejected and an accepted
in-limit response has paired keys and values. -/
theorem leafsLengthBounds_witness :
    (∃ e, parseLeafsResponse exVerify ⟨0, none, [255], 0⟩
      ⟨[[1]], [[2]], [], [], false⟩ = .error e) ∧
    ([[1]] : List Bytes).length = ([[2]] : List Bytes).length ∧
      ([[1]] : List Bytes).length ≤ 10 ∧ ([[2]] : List Bytes).length ≤ 10 :=
  ⟨(leafsLengthBounds exVerify exVerify_enforcesPairing ⟨0, none, [255], 0⟩
      ⟨[[1]], [[2]], [], [], false⟩).1 (by decide),
   (leafsLengthBounds exVerify exVerify_enforcesPairing ⟨0, none, [255], 10⟩
      ⟨[[1]], [[2]], [], [], false⟩).2 ⟨[[1]], [[2]], [], [], false⟩ rfl⟩

/-- Counterexample to C5 as stated: a response with no proof keys but a
non-empty ProofVals sequence is accepted, because the source only
compares the proof lengths when ProofKeys is non-empty and otherwise
hands the verifier a nil proof store; the accepted response here has
zero proof keys and one proof value. -/
theorem proofPairingViolated :
    parseLeafsResponse exVerify ⟨0, none, [255], 10⟩
        ⟨[[1]], [[2]], [], [[3]], false⟩ =
      .ok ⟨[[1]], [[2]], [], [[3]], false⟩ ∧
    (⟨[[1]], [[2]], [], [[3]], false⟩ : LeafsResponse).ProofKeys.length ≠
      (⟨[[1]], [[2]], [], [[3]], false⟩ : LeafsResponse).ProofVals.length := by
  constructor
  · rfl
  · decide

/-- C5 amended: the leaf validator enforces the 1:1 pairing of ProofKeys
and ProofVals only when ProofKeys is non-empty: a response with proof
keys whose proof values do not pair 1:1 is rejected with a retryable
error, and every accepted response with non-empty ProofKeys has equally
many proof values. When ProofKeys is empty, ProofVals is ignored. -/
theorem proofPairingWhenPresent (verify : Verifier) (req : LeafsRequest)
    (resp : LeafsResponse) :
    (resp.ProofKeys.length > 0 →
      resp.ProofKeys.length ≠ resp.ProofVals.length →
      ∃ e, parseLeafsResponse verify req resp = .error e) ∧
    (∀ r, parseLeafsResponse verify req resp = .ok r →
      resp.ProofKeys.length > 0 →
      resp.ProofKeys.length = resp.ProofVals.length) := by
  constructor
  · intro hpos hne
    rw [parseLeafsResponse]
    by_cases h1 : resp.Keys.length > req.Limit ∨ resp.Vals.length > req.Limit
    · rw [if_pos h1]
      exact ⟨_, rfl⟩
    · rw [if_neg h1]
      by_cases h2 : resp.Keys.length = 0 ∧ resp.ProofKeys.length = 0
      · rw [if_pos h2]
        exact ⟨_, rfl⟩
      · rw [if_neg h2, if_pos ⟨hpos, hne⟩]
        exact ⟨_, rfl⟩
  · intro r hok hpos
    by_cases h3 : resp.ProofKeys.length = resp.ProofVals.length
    · exact h3
    · exfalso
      by_cases h1 : resp.Keys.length > req.Limit ∨ resp.Vals.length > req.Limit
      · rw [parseLeafsResponse, if_pos h1] at hok
        cases hok
      · by_cases h2 : resp.Keys.length = 0 ∧ resp.ProofKeys.length = 0
        · rw [parseLeafsResponse, if_neg h1, if_pos h2] at hok
          cases hok
        · rw [parseLeafsResponse, if_neg h1, if_neg h2,
            if_pos ⟨hpos, h3⟩] at hok
          cases hok

/-- Witness for the amended C5: a response with one proof key and no
proof values is rejected. -/
theorem proofPairingWhenPresent_witness :
    ∃ e, parseLeafsResponse exVerify ⟨0, none, [255], 10⟩
      ⟨[[1]], [[2]], [[4]], [], false⟩ = .error e :=
  (proofPairingWhenPresent exVerify ⟨0, none, [255], 10⟩
    ⟨[[1]], [[2]], [[4]], [], false⟩).1 (by decide) (by decide)

/-- C6: a decoded leafs response with an empty Keys sequence and no
proof keys is always rejected by the leaf validator with a retryable
error; since the validator is a function, it is in particular never
accepted. -/
theorem emptyKeysRequireProof (verify : Verifier) (req : LeafsRequest)
    (resp : LeafsResponse) (hk : resp.Keys = []) (hp : resp.ProofKeys = []) :
    ∃ e, parseLeafsResponse verify req resp = .error e := by
  rw [parseLeafsResponse]
  by_cases h1 : resp.Keys.length > req.Limit ∨ resp.Vals.length > req.Limit
  · rw [if_pos h1]
    exact ⟨_, rfl⟩
  · rw [if_neg h1, if_pos (by simp [hk, hp])]
    exact ⟨_, rfl⟩

/-- Witness for C6 on the all-empty response. -/
theorem emptyKeysRequireProof_witness :
    ∃ e, parseLeafsResponse exVerify ⟨0, none, [255], 10⟩
      ⟨[], [], [], [], false⟩ = .error e :=
  emptyKeysRequireProof exVerify ⟨0, none, [255], 10⟩
    ⟨[], [], [], [], false⟩ rfl rfl

/-- C7: on a decoded response that passes the length, empty-keys and
proof-pairing checks, the leaf validator is exactly the verifier call on
the request root, the effective first key (Start if present, else the
all-zero key of the byte-length of End), the effective last key (last
entry of Keys if any, else End), the unmodified Keys and Vals and the
proof store; on verifier success it returns the response with Keys and
Vals unmodified and More set to the verifier's has-more result. -/
theorem leafsVerifierInvocation (verify : Verifier) (req : LeafsRequest)
    (resp : LeafsResponse)
    (h1 : ¬(resp.Keys.length > req.Limit ∨ resp.Vals.length > req.Limit))
    (h2 : ¬(resp.Keys.length = 0 ∧ resp.ProofKeys.length = 0))
    (h3 : ¬(resp.ProofKeys.length > 0 ∧
      resp.ProofKeys.length ≠ resp.ProofVals.length)) :
    (parseLeafsResponse verify req resp =
      match verify req.Root (effectiveFirstKey req) (effectiveLastKey req resp)
          resp.Keys resp.Vals (proofStore resp) with
      | .error e => .error ("failed to verify range proof due to " ++ e)
      | .ok more => .ok { resp with More := more }) ∧
    ∀ m, verify req.Root (effectiveFirstKey req) (effectiveLastKey req resp)
        resp.Keys resp.Vals (proofStore resp) = .ok m →
      parseLeafsResponse verify req resp = .ok { resp with More := m } := by
  refine ⟨parseLeafsResponse_checks verify req resp h1 h2 h3, ?_⟩
  intro m hv
  rw [parseLeafsResponse_checks verify req resp h1 h2 h3, hv]

/-- Witness for C7: on a one-leaf response the validator returns the
response with More set to the concrete verifier's answer. -/
theorem leafsVerifierInvocation_witness :
    parseLeafsResponse exVerify ⟨0, none, [255], 10⟩
        ⟨[[1]], [[2]], [], [], false⟩ =
      .ok { Keys := [[1]], Vals := [[2]], ProofKeys := [], ProofVals := [],
            More := false } :=
  (leafsVerifierInvocation exVerify ⟨0, none, [255], 10⟩
    ⟨[[1]], [[2]], [], [], false⟩ (by decide) (by decide) (by decide)).2
    false rfl

/-- C8: the code validator accepts a decoded code response exactly when
its Data is non-empty and the content hash of Data equals the requested
hash (a mismatching hash is always rejected), the accepted value is the
response itself, and a successful engine-level GetCode run returns the
Data bytes of a transport response verbatim, with the hash guarantee. -/
theorem codeHashValidation (keccak : Bytes → Nat) (req : CodeRequest) :
    (∀ resp : CodeResponse,
      ((∃ r, parseCode keccak req resp = .ok r) ↔
        (resp.Data ≠ [] ∧ keccak resp.Data = req.Hash)) ∧
      ∀ r, parseCode keccak req resp = .ok r → r = resp) ∧
    (∀ (decodeCode : Bytes → Option CodeResponse)
      (cfg : GetConfig CodeResponse) (attempts s : Nat) (bs d : Bytes),
      cfg.encoded = some bs →
      cfg.parseFn = codeParseFn decodeCode keccak req →
      GetCodeRun cfg attempts s = .ok d →
      d ≠ [] ∧ keccak d = req.Hash ∧
        ∃ i raw c, cfg.net i bs = some raw ∧ decodeCode raw = some c ∧
          c.Data = d) := by
  constructor
  · intro resp
    constructor
    · constructor
      · rintro ⟨r, hok⟩
        obtain ⟨_, hne, hh⟩ := parseCode_ok keccak req resp r hok
        exact ⟨hne, hh⟩
      · rintro ⟨hne, hh⟩
        refine ⟨resp, ?_⟩
        rw [parseCode, if_neg (fun h => hne (List.length_eq_zero.1 h)),
          if_neg (not_not_intro hh)]
    · intro r hok
      exact (parseCode_ok keccak req resp r hok).1
  · intro decodeCode cfg attempts s bs d henc hpf hrun
    rw [GetCodeRun] at hrun
    cases hres : (get cfg attempts s).2.2 with
    | error e =>
      rw [hres] at hrun
      cases hrun
    | ok c0 =>
      rw [hres] at hrun
      cases hrun
      obtain ⟨bs', henc', i, raw, hnet, hparse⟩ := get_ok cfg attempts s c0 hres
      rw [henc] at henc'
      cases henc'
      rw [hpf] at hparse
      simp only [codeParseFn] at hparse
      cases hdc : decodeCode raw with
      | none =>
        rw [hdc] at hparse
        cases hparse
      | some c =>
        rw [hdc] at hparse
        simp only [] at hparse
        obtain ⟨hrc, hne, hh⟩ := parseCode_ok keccak req c c0 hparse
        subst hrc
        exact ⟨hne, hh, ⟨i, raw, c0, hnet, hdc, rfl⟩⟩

/-- Toy content hash for concrete runs: the sum of the bytes. -/
def exKeccak : Bytes → Nat := fun b => b.foldl (fun acc x => acc + x) 0

/-- Code decoder for concrete runs: every payload decodes to the same
two-byte blob. -/
def exDecodeCode : Bytes → Option CodeResponse := fun _ => some ⟨[1, 2]⟩

/-- Engine configuration for a concrete successful GetCode run. -/
def exCodeCfg : GetConfig CodeResponse :=
  { encoded := some [9]
    stateSyncNodes := []
    maxDelayNanos := 5
    net := fun _ _ => some [0]
    parseFn := codeParseFn exDecodeCode exKeccak ⟨3⟩
    randSrc := fun _ => 0 }

/-- Witness for C8: a matching response is accepted, and the concrete
one-attempt GetCode run returns its bytes verbatim. -/
theorem codeHashValidation_witness :
    (∃ r, parseCode exKeccak ⟨3⟩ ⟨[1, 2]⟩ = .ok r) ∧
    (([1, 2] : Bytes) ≠ [] ∧ exKeccak [1, 2] = 3 ∧
      ∃ i raw c, exCodeCfg.net i [9] = some raw ∧
        exDecodeCode raw = some c ∧ c.Data = [1, 2]) :=
  ⟨((codeHashValidation exKeccak ⟨3⟩).1 ⟨[1, 2]⟩).1.mpr ⟨by decide, by decide⟩,
   (codeHashValidation exKeccak ⟨3⟩).2 exDecodeCode exCodeCfg 1 0 [9] [1, 2]
     rfl rfl rfl⟩

end StateSync
